import Mathlib

/-!
Shallow embedding of `src/LinuxContigPhysPages.c` (compile-time configuration:
`ECHO_QUALITY = 0`, `FAILOVER_ALLOCATION = 0`, `USE_MMAP_ALLOCATION = 0`, so the
allocator is `posix_memalign`/`free` and no failover block is appended).

Machine integers are modelled as `Nat` with explicit `% 2^32` where the C
`uint32_t` arithmetic can wrap.  The external collaborators (the backing
allocator `posix_memalign`, the pinning primitives `mlock`/`munlock`, and the
`/proc/self/pagemap` introspection reads) are modelled by an explicit
environment supplying, for each trial index, the allocator's result (0 for an
allocation failure, matching the code's `blockArray[trial] == 0` failure
convention), the `mlock` success bit, and the 64-bit pagemap words whose low
32 bits the code reads.  All side effects (allocator calls, pins, introspection
reads, and the unpin/release pairs made by the cleanup loop) are recorded as
event lists in the final state so that resource claims are statable.
-/

namespace ContigPhys

/-- `#define CACHE_GRANULARITY (1024*1024)` -/
def CACHE_GRANULARITY : Nat := 1024 * 1024

/-- `#define BLOCK_ALIGN (2*1024*1024)` -/
def BLOCK_ALIGN : Nat := 2 * 1024 * 1024

/-- `#define MAX_ATTEMPT 1024` -/
def MAX_ATTEMPT : Nat := 1024

/-- Modulus of `uint32_t` arithmetic. -/
def U32 : Nat := 2 ^ 32

/-- `cacheFriendlyFactor = (CACHE_GRANULARITY < 2*pageSize) ? 1 :
    (CACHE_GRANULARITY/pageSize - 1)` (lines 80-81). -/
def cacheFriendlyFactor (pageSize : Nat) : Nat :=
  if CACHE_GRANULARITY < 2 * pageSize then 1 else CACHE_GRANULARITY / pageSize - 1

/-- The size normalization of lines 91-101: round `allocSize` up to a multiple
of `pageSize` with the mask trick (`uint32_t` arithmetic, so the `+ pageSize`
can wrap), then raise to `CACHE_GRANULARITY`, then to `pageSize`.
`~(pageSize-1)` on `uint32_t` is `(U32-1) ^^^ (pageSize-1)`. -/
def normalizeSize (pageSize allocSize : Nat) : Nat :=
  let a1 := if allocSize &&& (pageSize - 1) ≠ 0 then
              ((allocSize &&& ((U32 - 1) ^^^ (pageSize - 1))) + pageSize) % U32
            else allocSize
  let a2 := if a1 < CACHE_GRANULARITY then CACHE_GRANULARITY else a1
  if a2 < pageSize then pageSize else a2

/-- The spec's description of rounding ("`s` rounded up to the next multiple of
PageSize"), as exact mathematical arithmetic, for comparison with the code's
`normalizeSize`. -/
def specRoundUp (pageSize s : Nat) : Nat :=
  pageSize * ((s + pageSize - 1) / pageSize)

/-- Conversion of a `uint32_t` value to C `int` (two's-complement wrap),
as in `numTrials = (availPhysPages/(allocSize/pageSize))*3/4` (line 104). -/
def toInt32 (n : Nat) : Int :=
  if n % U32 < 2 ^ 31 then (n % U32 : Int) else (n % U32 : Int) - (U32 : Int)

/-- Lines 104-109: the attempt budget.  `availPhysPages`, `allocSize`,
`pageSize` are `uint32_t`, so the division and `*3` happen mod `2^32`; the
result is stored in the `int numTrials` and capped at `MAX_ATTEMPT`. -/
def numTrialsOf (pageSize avail sizeN : Nat) : Int :=
  let q := avail / (sizeN / pageSize)
  let r := toInt32 (q * 3 % U32 / 4)
  if r > (MAX_ATTEMPT : Int) then (MAX_ATTEMPT : Int) else r

/-- Outcome of the page-walk loop of lines 152-174 for one trial:
`abort` = the first frame read was the sentinel 0 (`goto error_exit`),
`disq` = some later transition broke cache compatibility (`break`, so the
trial ends with `page != allocPages`), `done gaps` = the loop ran to
completion with `pageGaps = gaps`. -/
inductive WalkResult where
  | abort : WalkResult
  | disq : WalkResult
  | done : Nat → WalkResult
deriving DecidableEq, Repr

/-- Classification of one consecutive frame pair (lines 156-163):
`prev_page + 1` is computed in `uint32_t`. -/
inductive PairClass where
  | contiguous : PairClass
  | gap : PairClass
  | disqualify : PairClass
deriving DecidableEq, Repr

/-- Lines 156-163: `curr_page != prev_page+1`, then
`check = (prev_page+1) | curr_page` tested against `cacheFriendlyFactor`. -/
def classifyPair (cff prev curr : Nat) : PairClass :=
  if curr = (prev + 1) % U32 then .contiguous
  else if cff &&& (((prev + 1) % U32) ||| curr) = 0 then .gap
  else .disqualify

/-- The body of the page loop from `page = 1` on, with `rem` pages left to
visit.  Returns the walk outcome and the number of `fread` introspection reads
performed by this part of the loop. -/
def walkFrom (cff : Nat) (frames : Nat → Nat) : Nat → Nat → Nat → Nat → WalkResult × Nat
  | 0, _, _, gaps => (.done gaps, 0)
  | rem + 1, page, prev, gaps =>
    let curr := frames page % U32
    match classifyPair cff prev curr with
    | .contiguous =>
      let r := walkFrom cff frames rem (page + 1) curr gaps
      (r.1, r.2 + 1)
    | .gap =>
      let r := walkFrom cff frames rem (page + 1) curr (gaps + 1)
      (r.1, r.2 + 1)
    | .disqualify => (.disq, 1)

/-- The whole page loop of lines 152-174 for one trial: read page 0's frame
(low 32 bits of the pagemap word); a zero first frame aborts the whole call;
otherwise walk the remaining `allocPages - 1` transitions. -/
def walkPages (cff : Nat) (frames : Nat → Nat) (allocPages : Nat) : WalkResult × Nat :=
  if allocPages = 0 then (.done 0, 0)
  else
    let p0 := frames 0 % U32
    if p0 = 0 then (.abort, 1)
    else
      let r := walkFrom cff frames (allocPages - 1) 1 p0 0
      (r.1, r.2 + 1)

/-- Environment for one trial: the address `posix_memalign` stores into
`blockArray[trial]` (0 models an allocation failure, which is exactly what the
code tests), whether `mlock` succeeds, and the pagemap words for the trial's
pages (the code uses their low 32 bits). -/
structure TrialEnv where
  alloc : Nat
  mlockOk : Bool
  frames : Nat → Nat

/-- Environment of one `allocate_phys_mem` call: the cached page size, the
`sysconf(_SC_AVPHYS_PAGES)` result, whether `fopen("/proc/self/pagemap")`
succeeds, and the per-trial external behaviour. -/
structure Env where
  pageSize : Nat
  availPhysPages : Nat
  pagemapOpens : Bool
  trials : Nat → TrialEnv

/-- Mutable state of the search loop.  `blocks` is `blockArray`; `allocs`,
`mlocks`, `reads` record, in order, the allocator invocations (trial, stored
address), the `mlock` invocations (trial, address), and the introspection
activity (trial, number of `fread`s). -/
structure St where
  blocks : Nat → Nat
  phys : Nat
  best : Int
  bestGaps : Int
  allocs : List (Nat × Nat)
  mlocks : List (Nat × Nat)
  reads : List (Nat × Nat)

/-- How the search loop ended: `normal` = loop guard `trial < numTrials`
failed; `brk` = one of the three `break`s; `abort` = `goto error_exit` from the
zero-first-frame sentinel; `noopen` = the loop never started because
`fopen("/proc/self/pagemap")` failed. -/
inductive Exit where
  | normal : Exit
  | brk : Exit
  | abort : Exit
  | noopen : Exit
deriving DecidableEq, Repr

/-- The trial loop of lines 119-187, by fuel (`numTrials - trial` remaining
iterations).  Returns the final value of the C variable `trial`, how the loop
ended, and the final state. -/
def runFrom (env : Env) (cff aP : Nat) : Nat → Nat → St → Nat × Exit × St
  | 0, t, s => (t, .normal, s)
  | fuel + 1, t, s =>
    let te := env.trials t
    let a := te.alloc
    let s1 : St := { s with blocks := fun j => if j = t then a else s.blocks j,
                            allocs := s.allocs ++ [(t, a)] }
    if a = 0 then (t, .brk, s1)
    else
      let s2 := { s1 with mlocks := s1.mlocks ++ [(t, a)] }
      if te.mlockOk then
        let w := walkPages cff te.frames aP
        let s3 := { s2 with reads := s2.reads ++ [(t, w.2)] }
        match w.1 with
        | .abort => (t, .abort, s3)
        | .disq => runFrom env cff aP fuel (t + 1) s3
        | .done g =>
          if s3.best = -1 ∨ (g : Int) < s3.bestGaps then
            let s4 := { s3 with phys := a, best := (t : Int), bestGaps := (g : Int) }
            if g = 0 then (t, .brk, s4) else runFrom env cff aP fuel (t + 1) s4
          else runFrom env cff aP fuel (t + 1) s3
      else (t, .brk, s2)

/-- The cleanup loop of lines 204-215: `for (unwind = count-1; unwind >= 0;
--unwind)`, emitting a `munlock` + `free` pair (as one list entry
`(index, address)`) for every slot that is neither the best block nor null.
Entries appear in the loop's descending order. -/
def cleanupList (blocks : Nat → Nat) (best : Int) : Nat → List (Nat × Nat)
  | 0 => []
  | u + 1 =>
    (if (u : Int) ≠ best ∧ blocks u ≠ 0 then [(u, blocks u)] else []) ++
      cleanupList blocks best u

/-- Number of loop iterations actually entered, recovered from the final
`trial` value and the exit kind: a `break`/`goto` leaves `trial` at the index
of the iteration it escaped from. -/
def entEnd (tf : Nat) (ex : Exit) : Nat :=
  match ex with
  | .normal => tf
  | .noopen => 0
  | _ => tf + 1

/-- Result of one `allocate_phys_mem` call: the returned pointer (`ret`, 0 for
null), the selector variables, the attempt budget, the final `trial` value and
exit kind, the recorded events, the final `blockArray`, the unpin/release
pairs performed by the cleanup loop, and the normalized size. -/
structure CallResult where
  ret : Nat
  best : Int
  bestGaps : Int
  nT : Int
  tf : Nat
  exit : Exit
  attempted : Nat
  allocs : List (Nat × Nat)
  mlocks : List (Nat × Nat)
  reads : List (Nat × Nat)
  blocks : Nat → Nat
  cleanup : List (Nat × Nat)
  sizeN : Nat

/-- The normalized size of a call (lines 91-101 applied to the request). -/
def sizeNOf (env : Env) (allocSize : Nat) : Nat :=
  normalizeSize env.pageSize allocSize

/-- `allocPages = allocSize / pageSize` (line 123) for a call. -/
def aPOf (env : Env) (allocSize : Nat) : Nat :=
  sizeNOf env allocSize / env.pageSize

/-- The attempt budget of a call (lines 104-109). -/
def nTOf (env : Env) (allocSize : Nat) : Int :=
  numTrialsOf env.pageSize env.availPhysPages (sizeNOf env allocSize)

/-- The cached `cacheFriendlyFactor` of a call. -/
def cffOf (env : Env) : Nat := cacheFriendlyFactor env.pageSize

/-- Loop state at line 119: `blockArray[0]` nulled (line 88), `physBlock = 0`,
`bestBlock = -1`, `bestGapCount = -1`, no events yet. -/
def initSt (blocks0 : Nat → Nat) : St :=
  ⟨fun i => if i = 0 then 0 else blocks0 i, 0, -1, -1, [], [], []⟩

/-- The loop phase of `allocate_phys_mem`: the trial loop runs when the
pagemap file opens; lines 111-115 otherwise jump to `error_exit` with
`trial = 0`. -/
def loopOut (env : Env) (blocks0 : Nat → Nat) (allocSize : Nat) : Nat × Exit × St :=
  if env.pagemapOpens then
    runFrom env (cffOf env) (aPOf env allocSize) (nTOf env allocSize).toNat 0 (initSt blocks0)
  else (0, Exit.noopen, initSt blocks0)

/-- `allocate_phys_mem` (lines 59-234), over an explicit environment and the
pre-call contents of the static `blockArray`.  After the loop: the
`trial == numTrials` off-by-one correction (lines 198-200), then the cleanup
loop, then `return physBlock`. -/
def allocate_phys_mem (env : Env) (blocks0 : Nat → Nat) (allocSize : Nat) : CallResult :=
  let nT := nTOf env allocSize
  let o := loopOut env blocks0 allocSize
  let start : Int := if (o.1 : Int) = nT then (o.1 : Int) - 1 else (o.1 : Int)
  ⟨o.2.2.phys, o.2.2.best, o.2.2.bestGaps, nT, o.1, o.2.1, entEnd o.1 o.2.1,
    o.2.2.allocs, o.2.2.mlocks, o.2.2.reads, o.2.2.blocks,
    cleanupList o.2.2.blocks o.2.2.best (start + 1).toNat, sizeNOf env allocSize⟩

/-- Events of the release path. -/
inductive MemEvent where
  | munlockEv : Nat → Nat → MemEvent
  | freeEv : Nat → MemEvent
deriving DecidableEq, Repr

/-- `free_phys_mem` (lines 240-251): `munlock` then `free`, returning
`munlock`'s result.  `munlockRes` models the `munlock` primitive's return
code for a given (address, size); `free` returns nothing and is a no-op on a
null pointer, so the function is total for `physBlock = 0` as well. -/
def free_phys_mem (munlockRes : Nat → Nat → Int) (physBlock allocSize : Nat) :
    Int × List MemEvent :=
  let err := munlockRes physBlock allocSize
  (err, [.munlockEv physBlock allocSize, .freeEv physBlock])

/-- Trial `t` "qualifies" in environment `env`: its allocation and pin succeed
and its page walk runs to completion with `g` gaps (`page == allocPages` at
line 176). -/
def trialQual (env : Env) (cff aP : Nat) (t g : Nat) : Prop :=
  (env.trials t).alloc ≠ 0 ∧ (env.trials t).mlockOk = true ∧
    (walkPages cff (env.trials t).frames aP).1 = .done g

instance (env : Env) (cff aP t g : Nat) : Decidable (trialQual env cff aP t g) := by
  unfold trialQual; infer_instance



/-- A bitwise-or is zero exactly when both operands are. -/
theorem lor_eq_zero_iff (x y : Nat) : x ||| y = 0 ↔ x = 0 ∧ y = 0 := by
  constructor
  · intro h
    refine ⟨Nat.eq_of_testBit_eq fun i => ?_, Nat.eq_of_testBit_eq fun i => ?_⟩ <;>
    · have hb := congrArg (fun z => Nat.testBit z i) h
      simp only [Nat.testBit_or, Nat.zero_testBit, Bool.or_eq_false_iff] at hb
      simp [hb.1, hb.2]
  · rintro ⟨rfl, rfl⟩
    rfl

/-- A low-bits mask of the form `2^e - 1` tests divisibility of an or by
`2^e` on both sides at once. -/
theorem mask_lor_eq_zero_iff (e a b : Nat) :
    (2 ^ e - 1) &&& (a ||| b) = 0 ↔ 2 ^ e ∣ a ∧ 2 ^ e ∣ b := by
  rw [Nat.land_comm, Nat.and_distrib_right, Nat.and_pow_two_sub_one_eq_mod,
    Nat.and_pow_two_sub_one_eq_mod, lor_eq_zero_iff]
  rw [Nat.dvd_iff_mod_eq_zero, Nat.dvd_iff_mod_eq_zero]

/-- `cacheFriendlyFactor` at a power-of-two page size is a low-bits mask. -/
theorem cacheFriendlyFactor_mask (k : Nat) :
    ∃ e, 0 < e ∧ e ≤ 20 ∧ cacheFriendlyFactor (2 ^ k) = 2 ^ e - 1 := by
  unfold cacheFriendlyFactor CACHE_GRANULARITY
  by_cases h : 1024 * 1024 < 2 * 2 ^ k
  · exact ⟨1, by norm_num, by norm_num, by simp [h]⟩
  · have h20 : (1024 * 1024 : Nat) = 2 ^ 20 := by norm_num
    have hk : k + 1 ≤ 20 := by
      have : (2 : Nat) ^ (k + 1) ≤ 2 ^ 20 := by
        rw [pow_succ, Nat.mul_comm]
        omega
      exact (Nat.pow_le_pow_iff_right (by norm_num)).mp this
    refine ⟨20 - k, by omega, by omega, ?_⟩
    simp only [h, if_false]
    rw [h20, Nat.pow_div (by omega) (by norm_num)]

/-- `s &&& ~(pageSize-1)` on `uint32_t`, for a power-of-two page size, clears
the low `k` bits: it equals `s - s % 2^k`. -/
theorem and_compl_mask (k s : Nat) (hk : k ≤ 32) (hs : s < 2 ^ 32) :
    s &&& ((2 ^ 32 - 1) ^^^ (2 ^ k - 1)) = s - s % 2 ^ k := by
  have h1 : s - s % 2 ^ k = (s >>> k) <<< k := by
    rw [Nat.shiftLeft_eq, Nat.shiftRight_eq_div_pow]
    have := Nat.mod_add_div s (2 ^ k)
    have h2 : 2 ^ k * (s / 2 ^ k) = s / 2 ^ k * 2 ^ k := Nat.mul_comm _ _
    omega
  rw [h1]
  apply Nat.eq_of_testBit_eq
  intro i
  simp only [Nat.testBit_and, Nat.testBit_xor, Nat.testBit_two_pow_sub_one,
    Nat.testBit_shiftLeft, Nat.testBit_shiftRight]
  by_cases hi : i < 32
  · by_cases hik : i < k
    · simp [hi, hik, Nat.not_le.mpr hik]
    · have hge : i ≥ k := Nat.le_of_not_lt hik
      have hadd : k + (i - k) = i := by omega
      simp [hi, hik, hge, hadd]
  · have hfalse : s.testBit i = false :=
      Nat.testBit_lt_two_pow (lt_of_lt_of_le hs (Nat.pow_le_pow_right (by norm_num)
        (Nat.le_of_not_lt hi)))
    have hik : ¬ i < k := by omega
    have hadd : k + (i - k) = i := by omega
    simp [hi, hik, hadd, hfalse, show k ≤ i by omega]

/-- Exact value of the spec's round-up. -/
theorem specRoundUp_eq (p s : Nat) (hp : 0 < p) :
    specRoundUp p s = if s % p = 0 then s else s - s % p + p := by
  unfold specRoundUp
  have hd := Nat.div_add_mod s p
  by_cases h : s % p = 0
  · rw [if_pos h]
    have hq : p * (s / p) = s := by omega
    have hdiv : (s + p - 1) / p = s / p := by
      apply Nat.div_eq_of_lt_le
      · rw [Nat.mul_comm]; omega
      · rw [Nat.add_mul, Nat.one_mul, Nat.mul_comm]; omega
    rw [hdiv, hq]
  · rw [if_neg h]
    have hr := Nat.mod_lt s hp
    have hdiv : (s + p - 1) / p = s / p + 1 := by
      apply Nat.div_eq_of_lt_le
      · rw [Nat.add_mul, Nat.one_mul, Nat.mul_comm]; omega
      · rw [Nat.add_mul, Nat.add_mul, Nat.one_mul, Nat.mul_comm]; omega
    rw [hdiv, Nat.mul_add, Nat.mul_one]
    omega

/-- For a power-of-two page size and a request that does not overflow the
`uint32_t` round-up, the code's normalization is exactly the maximum of the
page size, the cache granularity, and the spec's round-up. -/
theorem normalizeSize_eq (k s : Nat) (hk : k ≤ 32) (hs : s + 2 ^ k ≤ 2 ^ 32) :
    normalizeSize (2 ^ k) s =
      max (2 ^ k) (max CACHE_GRANULARITY (specRoundUp (2 ^ k) s)) := by
  have hp : 0 < 2 ^ k := Nat.two_pow_pos k
  have hslt : s < 2 ^ 32 := by omega
  rw [specRoundUp_eq _ _ hp]
  unfold normalizeSize U32 CACHE_GRANULARITY
  simp only [Nat.and_pow_two_sub_one_eq_mod]
  rw [and_compl_mask k s hk hslt]
  by_cases h : s % 2 ^ k = 0
  · simp only [h, ne_eq, not_true_eq_false, if_false, ite_false]
    have hr : s % 2 ^ k ≤ s := Nat.mod_le s _
    simp only [Nat.max_def]
    split_ifs <;> first | contradiction | omega
  · have hr : 0 < s % 2 ^ k := Nat.pos_of_ne_zero h
    have hrs : s % 2 ^ k ≤ s := Nat.mod_le s _
    have hmod : (s - s % 2 ^ k + 2 ^ k) % 2 ^ 32 = s - s % 2 ^ k + 2 ^ k :=
      Nat.mod_eq_of_lt (by omega)
    simp only [h, ne_eq, not_false_eq_true, if_true, ite_true, hmod]
    simp only [Nat.max_def]
    split_ifs <;> first | contradiction | omega

/-- Shape of the trial loop: the final `trial` value is in range, a normal
exit means the budget was exhausted, and any break/abort happened at a trial
index strictly inside the budget. -/
theorem runFrom_shape (env : Env) (cff aP : Nat) :
    ∀ fuel t s tf ex s', runFrom env cff aP fuel t s = (tf, ex, s') →
      t ≤ tf ∧ (ex = .normal → tf = t + fuel) ∧
        (ex ≠ .normal → tf + 1 ≤ t + fuel) ∧ ex ≠ Exit.noopen := by
  intro fuel
  induction fuel with
  | zero =>
    intro t s tf ex s' h
    simp only [runFrom] at h
    injection h with h1 h2
    injection h2 with h2 h3
    subst h1; subst h2
    exact ⟨Nat.le_refl t, fun _ => rfl, fun hn => absurd rfl hn, by simp⟩
  | succ fuel ih =>
    intro t s tf ex s' h
    simp only [runFrom] at h
    split at h
    · injection h with h1 h2
      injection h2 with h2 h3
      subst h1; subst h2
      exact ⟨Nat.le_refl t, by simp, fun _ => by omega, by simp⟩
    · split at h
      · split at h
        · injection h with h1 h2
          injection h2 with h2 h3
          subst h1; subst h2
          exact ⟨Nat.le_refl t, by simp, fun _ => by omega, by simp⟩
        · obtain ⟨h1, h2, h3, h4⟩ := ih _ _ _ _ _ h
          exact ⟨by omega, fun hn => by have := h2 hn; omega,
            fun hn => by have := h3 hn; omega, h4⟩
        · split at h
          · split at h
            · injection h with h1 h2
              injection h2 with h2 h3
              subst h1; subst h2
              exact ⟨Nat.le_refl t, by simp, fun _ => by omega, by simp⟩
            · obtain ⟨h1, h2, h3, h4⟩ := ih _ _ _ _ _ h
              exact ⟨by omega, fun hn => by have := h2 hn; omega,
                fun hn => by have := h3 hn; omega, h4⟩
          · obtain ⟨h1, h2, h3, h4⟩ := ih _ _ _ _ _ h
            exact ⟨by omega, fun hn => by have := h2 hn; omega,
              fun hn => by have := h3 hn; omega, h4⟩
      · injection h with h1 h2
        injection h2 with h2 h3
        subst h1; subst h2
        exact ⟨Nat.le_refl t, by simp, fun _ => by omega, by simp⟩

/-- If the loop did not skip (`noopen`), `entEnd` is at least the final trial
index. -/
theorem entEnd_lower (tf : Nat) (ex : Exit) (hne : ex ≠ Exit.noopen) :
    tf ≤ entEnd tf ex := by
  cases ex
  · exact Nat.le_refl tf
  · exact Nat.le_succ tf
  · exact Nat.le_succ tf
  · exact absurd rfl hne

/-- The number of entered iterations never exceeds the fuel. -/
theorem runFrom_entEnd_le (env : Env) (cff aP fuel t : Nat) (s : St) (tf : Nat)
    (ex : Exit) (s' : St) (h : runFrom env cff aP fuel t s = (tf, ex, s')) :
    t ≤ entEnd tf ex ∧ entEnd tf ex ≤ t + fuel := by
  obtain ⟨h1, h2, h3, h4⟩ := runFrom_shape env cff aP fuel t s tf ex s' h
  constructor
  · exact Nat.le_trans h1 (entEnd_lower tf ex h4)
  · cases ex
    · rw [h2 rfl]; exact Nat.le_refl _
    · exact h3 (by simp)
    · exact h3 (by simp)
    · exact absurd rfl h4

/-- `blockArray` after the loop: slots below the starting trial are untouched,
every entered trial's slot holds exactly what the allocator stored there, and
slots at or above the first non-entered index are untouched. -/
theorem runFrom_blocks (env : Env) (cff aP : Nat) :
    ∀ fuel t s tf ex s', runFrom env cff aP fuel t s = (tf, ex, s') →
      (∀ i, i < t → s'.blocks i = s.blocks i) ∧
      (∀ i, t ≤ i → i < entEnd tf ex → s'.blocks i = (env.trials i).alloc) ∧
      (∀ i, entEnd tf ex ≤ i → s'.blocks i = s.blocks i) := by
  intro fuel
  induction fuel with
  | zero =>
    intro t s tf ex s' h
    simp only [runFrom] at h
    injection h with h1 h2
    injection h2 with h2 h3
    subst h1; subst h2; subst h3
    exact ⟨fun i _ => rfl, fun i hi hi2 => by simp only [entEnd] at hi2; omega,
      fun i _ => rfl⟩
  | succ fuel ih =>
    intro t s tf ex s' h
    simp only [runFrom] at h
    split at h
    · rename_i ha
      injection h with h1 h2
      injection h2 with h2 h3
      subst h1; subst h2; subst h3
      refine ⟨fun i hi => by simp [show ¬ i = t by omega],
        fun i hi hi2 => ?_, fun i hi => ?_⟩
      · simp only [entEnd] at hi2
        have : i = t := by omega
        subst this
        simp [ha]
      · simp only [entEnd] at hi
        simp [show ¬ i = t by omega]
    · split at h
      · split at h
        · injection h with h1 h2
          injection h2 with h2 h3
          subst h1; subst h2; subst h3
          refine ⟨fun i hi => by simp [show ¬ i = t by omega],
            fun i hi hi2 => ?_, fun i hi => ?_⟩
          · simp only [entEnd] at hi2
            have : i = t := by omega
            subst this
            simp
          · simp only [entEnd] at hi
            simp [show ¬ i = t by omega]
        · obtain ⟨l1, l2, l3⟩ := ih _ _ _ _ _ h
          have he := runFrom_entEnd_le env cff aP fuel _ _ _ _ _ h
          refine ⟨fun i hi => ?_, fun i hi hi2 => ?_, fun i hi => ?_⟩
          · rw [l1 i (by omega)]
            simp [show ¬ i = t by omega]
          · rcases Nat.eq_or_lt_of_le hi with hit | hit
            · subst hit
              rw [l1 t (by omega)]
              simp
            · exact l2 i hit hi2
          · rw [l3 i hi]
            simp [show ¬ i = t by omega]
        · split at h
          · split at h
            · injection h with h1 h2
              injection h2 with h2 h3
              subst h1; subst h2; subst h3
              refine ⟨fun i hi => by simp [show ¬ i = t by omega],
                fun i hi hi2 => ?_, fun i hi => ?_⟩
              · simp only [entEnd] at hi2
                have : i = t := by omega
                subst this
                simp
              · simp only [entEnd] at hi
                simp [show ¬ i = t by omega]
            · obtain ⟨l1, l2, l3⟩ := ih _ _ _ _ _ h
              have he := runFrom_entEnd_le env cff aP fuel _ _ _ _ _ h
              refine ⟨fun i hi => ?_, fun i hi hi2 => ?_, fun i hi => ?_⟩
              · rw [l1 i (by omega)]
                simp [show ¬ i = t by omega]
              · rcases Nat.eq_or_lt_of_le hi with hit | hit
                · subst hit
                  rw [l1 t (by omega)]
                  simp
                · exact l2 i hit hi2
              · rw [l3 i hi]
                simp [show ¬ i = t by omega]
          · obtain ⟨l1, l2, l3⟩ := ih _ _ _ _ _ h
            have he := runFrom_entEnd_le env cff aP fuel _ _ _ _ _ h
            refine ⟨fun i hi => ?_, fun i hi hi2 => ?_, fun i hi => ?_⟩
            · rw [l1 i (by omega)]
              simp [show ¬ i = t by omega]
            · rcases Nat.eq_or_lt_of_le hi with hit | hit
              · subst hit
                rw [l1 t (by omega)]
                simp
              · exact l2 i hit hi2
            · rw [l3 i hi]
              simp [show ¬ i = t by omega]
      · injection h with h1 h2
        injection h2 with h2 h3
        subst h1; subst h2; subst h3
        refine ⟨fun i hi => by simp [show ¬ i = t by omega],
          fun i hi hi2 => ?_, fun i hi => ?_⟩
        · simp only [entEnd] at hi2
          have : i = t := by omega
          subst this
          simp
        · simp only [entEnd] at hi
          simp [show ¬ i = t by omega]

/-- Event bookkeeping of the loop: previously recorded events persist, every
new event is tagged with an entered trial index, each entered trial invoked
the allocator exactly once (so the allocator-call count equals the number of
entered iterations), and each entered trial's allocator record is present. -/
theorem runFrom_events (env : Env) (cff aP : Nat) :
    ∀ fuel t s tf ex s', runFrom env cff aP fuel t s = (tf, ex, s') →
      (∀ x, x ∈ s.allocs → x ∈ s'.allocs) ∧
      (∀ x, x ∈ s'.allocs → x ∈ s.allocs ∨
        (t ≤ x.1 ∧ x.1 < entEnd tf ex ∧ x.2 = (env.trials x.1).alloc)) ∧
      (∀ i, t ≤ i → i < entEnd tf ex → (i, (env.trials i).alloc) ∈ s'.allocs) ∧
      (s'.allocs.length = s.allocs.length + (entEnd tf ex - t)) ∧
      (∀ x, x ∈ s'.mlocks → x ∈ s.mlocks ∨ (t ≤ x.1 ∧ x.1 < entEnd tf ex)) ∧
      (∀ x, x ∈ s'.reads → x ∈ s.reads ∨ (t ≤ x.1 ∧ x.1 < entEnd tf ex)) := by
  intro fuel
  induction fuel with
  | zero =>
    intro t s tf ex s' h
    simp only [runFrom] at h
    injection h with h1 h2
    injection h2 with h2 h3
    subst h1; subst h2; subst h3
    exact ⟨fun x hx => hx, fun x hx => .inl hx,
      fun i h1 h2 => by simp only [entEnd] at h2; omega,
      by simp [entEnd], fun x hx => .inl hx, fun x hx => .inl hx⟩
  | succ fuel ih =>
    intro t s tf ex s' h
    simp only [runFrom] at h
    split at h
    · -- allocation failed: allocs gains (t, 0-result); mlocks, reads unchanged
      injection h with h1 h2
      injection h2 with h2 h3
      subst h1; subst h2; subst h3
      refine ⟨fun x hx => List.mem_append.mpr (.inl hx), fun x hx => ?_,
        fun i h1 h2 => ?_, by simp [entEnd], fun x hx => .inl hx, fun x hx => .inl hx⟩
      · rcases List.mem_append.mp hx with hx | hx
        · exact .inl hx
        · simp only [List.mem_singleton] at hx
          subst hx
          exact .inr ⟨Nat.le_refl t, by simp [entEnd], rfl⟩
      · simp only [entEnd] at h2
        have : i = t := by omega
        subst this
        exact List.mem_append.mpr (.inr (by simp))
    · split at h
      · split at h
        · -- abort at t: allocs, mlocks and reads each gain one record for t
          injection h with h1 h2
          injection h2 with h2 h3
          subst h1; subst h2; subst h3
          refine ⟨fun x hx => List.mem_append.mpr (.inl hx), fun x hx => ?_,
            fun i h1 h2 => ?_, by simp [entEnd], fun x hx => ?_, fun x hx => ?_⟩
          · rcases List.mem_append.mp hx with hx | hx
            · exact .inl hx
            · simp only [List.mem_singleton] at hx
              subst hx
              exact .inr ⟨Nat.le_refl t, by simp [entEnd], rfl⟩
          · simp only [entEnd] at h2
            have : i = t := by omega
            subst this
            exact List.mem_append.mpr (.inr (by simp))
          · rcases List.mem_append.mp hx with hx | hx
            · exact .inl hx
            · simp only [List.mem_singleton] at hx
              subst hx
              exact .inr ⟨Nat.le_refl t, by simp [entEnd]⟩
          · rcases List.mem_append.mp hx with hx | hx
            · exact .inl hx
            · simp only [List.mem_singleton] at hx
              subst hx
              exact .inr ⟨Nat.le_refl t, by simp [entEnd]⟩
        · -- disq: recurse
          obtain ⟨aMono, aSub, aMem, aLen, mSub, rSub⟩ := ih _ _ _ _ _ h
          have he := runFrom_entEnd_le env cff aP fuel _ _ _ _ _ h
          refine ⟨?_, ?_, ?_, ?_, ?_, ?_⟩
          · intro x hx
            exact aMono x (List.mem_append.mpr (.inl hx))
          · intro x hx
            rcases aSub x hx with hx2 | hx2
            · rcases List.mem_append.mp hx2 with hx3 | hx3
              · exact .inl hx3
              · simp only [List.mem_singleton] at hx3
                subst hx3
                exact .inr ⟨Nat.le_refl t, by omega, rfl⟩
            · exact .inr ⟨by omega, hx2.2.1, hx2.2.2⟩
          · intro i h1 h2
            rcases Nat.eq_or_lt_of_le h1 with hit | hit
            · subst hit
              exact aMono _ (List.mem_append.mpr (.inr (by simp)))
            · exact aMem i hit h2
          · rw [aLen]
            simp only [List.length_append, List.length_singleton]
            omega
          · intro x hx
            rcases mSub x hx with hx2 | hx2
            · rcases List.mem_append.mp hx2 with hx3 | hx3
              · exact .inl hx3
              · simp only [List.mem_singleton] at hx3
                subst hx3
                exact .inr ⟨Nat.le_refl t, by omega⟩
            · exact .inr ⟨by omega, hx2.2⟩
          · intro x hx
            rcases rSub x hx with hx2 | hx2
            · rcases List.mem_append.mp hx2 with hx3 | hx3
              · exact .inl hx3
              · simp only [List.mem_singleton] at hx3
                subst hx3
                exact .inr ⟨Nat.le_refl t, by omega⟩
            · exact .inr ⟨by omega, hx2.2⟩
        · split at h
          · split at h
            · -- zero-gap break at t
              injection h with h1 h2
              injection h2 with h2 h3
              subst h1; subst h2; subst h3
              refine ⟨fun x hx => List.mem_append.mpr (.inl hx), fun x hx => ?_,
                fun i h1 h2 => ?_, by simp [entEnd], fun x hx => ?_, fun x hx => ?_⟩
              · rcases List.mem_append.mp hx with hx | hx
                · exact .inl hx
                · simp only [List.mem_singleton] at hx
                  subst hx
                  exact .inr ⟨Nat.le_refl t, by simp [entEnd], rfl⟩
              · simp only [entEnd] at h2
                have : i = t := by omega
                subst this
                exact List.mem_append.mpr (.inr (by simp))
              · rcases List.mem_append.mp hx with hx | hx
                · exact .inl hx
                · simp only [List.mem_singleton] at hx
                  subst hx
                  exact .inr ⟨Nat.le_refl t, by simp [entEnd]⟩
              · rcases List.mem_append.mp hx with hx | hx
                · exact .inl hx
                · simp only [List.mem_singleton] at hx
                  subst hx
                  exact .inr ⟨Nat.le_refl t, by simp [entEnd]⟩
            · -- new best, positive gaps: recurse
              obtain ⟨aMono, aSub, aMem, aLen, mSub, rSub⟩ := ih _ _ _ _ _ h
              have he := runFrom_entEnd_le env cff aP fuel _ _ _ _ _ h
              refine ⟨?_, ?_, ?_, ?_, ?_, ?_⟩
              · intro x hx
                exact aMono x (List.mem_append.mpr (.inl hx))
              · intro x hx
                rcases aSub x hx with hx2 | hx2
                · rcases List.mem_append.mp hx2 with hx3 | hx3
                  · exact .inl hx3
                  · simp only [List.mem_singleton] at hx3
                    subst hx3
                    exact .inr ⟨Nat.le_refl t, by omega, rfl⟩
                · exact .inr ⟨by omega, hx2.2.1, hx2.2.2⟩
              · intro i h1 h2
                rcases Nat.eq_or_lt_of_le h1 with hit | hit
                · subst hit
                  exact aMono _ (List.mem_append.mpr (.inr (by simp)))
                · exact aMem i hit h2
              · rw [aLen]
                simp only [List.length_append, List.length_singleton]
                omega
              · intro x hx
                rcases mSub x hx with hx2 | hx2
                · rcases List.mem_append.mp hx2 with hx3 | hx3
                  · exact .inl hx3
                  · simp only [List.mem_singleton] at hx3
                    subst hx3
                    exact .inr ⟨Nat.le_refl t, by omega⟩
                · exact .inr ⟨by omega, hx2.2⟩
              · intro x hx
                rcases rSub x hx with hx2 | hx2
                · rcases List.mem_append.mp hx2 with hx3 | hx3
                  · exact .inl hx3
                  · simp only [List.mem_singleton] at hx3
                    subst hx3
                    exact .inr ⟨Nat.le_refl t, by omega⟩
                · exact .inr ⟨by omega, hx2.2⟩
          · -- not better than current best: recurse
            obtain ⟨aMono, aSub, aMem, aLen, mSub, rSub⟩ := ih _ _ _ _ _ h
            have he := runFrom_entEnd_le env cff aP fuel _ _ _ _ _ h
            refine ⟨?_, ?_, ?_, ?_, ?_, ?_⟩
            · intro x hx
              exact aMono x (List.mem_append.mpr (.inl hx))
            · intro x hx
              rcases aSub x hx with hx2 | hx2
              · rcases List.mem_append.mp hx2 with hx3 | hx3
                · exact .inl hx3
                · simp only [List.mem_singleton] at hx3
                  subst hx3
                  exact .inr ⟨Nat.le_refl t, by omega, rfl⟩
              · exact .inr ⟨by omega, hx2.2.1, hx2.2.2⟩
            · intro i h1 h2
              rcases Nat.eq_or_lt_of_le h1 with hit | hit
              · subst hit
                exact aMono _ (List.mem_append.mpr (.inr (by simp)))
              · exact aMem i hit h2
            · rw [aLen]
              simp only [List.length_append, List.length_singleton]
              omega
            · intro x hx
              rcases mSub x hx with hx2 | hx2
              · rcases List.mem_append.mp hx2 with hx3 | hx3
                · exact .inl hx3
                · simp only [List.mem_singleton] at hx3
                  subst hx3
                  exact .inr ⟨Nat.le_refl t, by omega⟩
              · exact .inr ⟨by omega, hx2.2⟩
            · intro x hx
              rcases rSub x hx with hx2 | hx2
              · rcases List.mem_append.mp hx2 with hx3 | hx3
                · exact .inl hx3
                · simp only [List.mem_singleton] at hx3
                  subst hx3
                  exact .inr ⟨Nat.le_refl t, by omega⟩
              · exact .inr ⟨by omega, hx2.2⟩
      · -- mlock failed: allocs and mlocks gain a record; reads unchanged
        injection h with h1 h2
        injection h2 with h2 h3
        subst h1; subst h2; subst h3
        refine ⟨fun x hx => List.mem_append.mpr (.inl hx), fun x hx => ?_,
          fun i h1 h2 => ?_, by simp [entEnd], fun x hx => ?_, fun x hx => .inl hx⟩
        · rcases List.mem_append.mp hx with hx | hx
          · exact .inl hx
          · simp only [List.mem_singleton] at hx
            subst hx
            exact .inr ⟨Nat.le_refl t, by simp [entEnd], rfl⟩
        · simp only [entEnd] at h2
          have : i = t := by omega
          subst this
          exact List.mem_append.mpr (.inr (by simp))
        · rcases List.mem_append.mp hx with hx | hx
          · exact .inl hx
          · simp only [List.mem_singleton] at hx
            subst hx
            exact .inr ⟨Nat.le_refl t, by simp [entEnd]⟩

/-- A trial's qualification gap count is unique. -/
theorem trialQual_unique (env : Env) (cff aP t g g' : Nat)
    (h1 : trialQual env cff aP t g) (h2 : trialQual env cff aP t g') : g = g' := by
  have := h1.2.2.symm.trans h2.2.2
  injection this

/-- Selector invariant at `bound` trials examined: either no trial below
`bound` qualified and the selector variables still hold their initial values,
or `best` points at the earliest minimum-gap qualifying trial below `bound`,
`bestGapCount` is its gap count, and `physBlock` is its region. -/
def bestInv (env : Env) (cff aP bound : Nat) (best bestGaps : Int) (phys : Nat) : Prop :=
  (best = -1 ∧ bestGaps = -1 ∧ phys = 0 ∧ ∀ i g, i < bound → ¬ trialQual env cff aP i g)
  ∨ (∃ b gb : Nat, best = (b : Int) ∧ b < bound ∧ trialQual env cff aP b gb ∧
      bestGaps = (gb : Int) ∧ phys = (env.trials b).alloc ∧
      (∀ i g, i < bound → trialQual env cff aP i g → gb ≤ g) ∧
      (∀ i g, i < b → trialQual env cff aP i g → gb < g))

theorem bestInv_extend (env : Env) (cff aP bound : Nat) (best bestGaps : Int)
    (phys : Nat) (hinv : bestInv env cff aP bound best bestGaps phys)
    (hno : ∀ g, ¬ trialQual env cff aP bound g) :
    bestInv env cff aP (bound + 1) best bestGaps phys := by
  rcases hinv with ⟨h1, h2, h3, h4⟩ | ⟨b, gb, h1, h2, h3, h4, h5, h6, h7⟩
  · refine .inl ⟨h1, h2, h3, fun i g hi hq => ?_⟩
    rcases Nat.lt_succ_iff_lt_or_eq.mp hi with hi | hi
    · exact h4 i g hi hq
    · subst hi
      exact hno g hq
  · refine .inr ⟨b, gb, h1, by omega, h3, h4, h5, fun i g hi hq => ?_, h7⟩
    rcases Nat.lt_succ_iff_lt_or_eq.mp hi with hi | hi
    · exact h6 i g hi hq
    · subst hi
      exact absurd hq (hno g)

theorem bestInv_update (env : Env) (cff aP bound : Nat) (best bestGaps : Int)
    (phys g : Nat) (hinv : bestInv env cff aP bound best bestGaps phys)
    (hq : trialQual env cff aP bound g)
    (hcond : best = -1 ∨ (g : Int) < bestGaps) :
    bestInv env cff aP (bound + 1) (bound : Int) (g : Int) ((env.trials bound).alloc) := by
  have hmin : ∀ i g', i < bound → trialQual env cff aP i g' → g < g' := by
    intro i g' hi hq'
    rcases hinv with ⟨h1, h2, h3, h4⟩ | ⟨b, gb, h1, h2, h3, h4, h5, h6, h7⟩
    · exact absurd hq' (h4 i g' hi)
    · rcases hcond with hc | hc
      · rw [h1] at hc
        exact absurd hc (by omega)
      · rw [h4] at hc
        have := h6 i g' hi hq'
        omega
  refine .inr ⟨bound, g, rfl, by omega, hq, rfl, rfl, fun i g' hi hq' => ?_, hmin⟩
  rcases Nat.lt_succ_iff_lt_or_eq.mp hi with hi | hi
  · exact Nat.le_of_lt (hmin i g' hi hq')
  · subst hi
    exact Nat.le_of_eq (trialQual_unique env cff aP i g g' hq hq')

theorem bestInv_keep (env : Env) (cff aP bound : Nat) (best bestGaps : Int)
    (phys g : Nat) (hinv : bestInv env cff aP bound best bestGaps phys)
    (hq : trialQual env cff aP bound g)
    (hcond : ¬(best = -1 ∨ (g : Int) < bestGaps)) :
    bestInv env cff aP (bound + 1) best bestGaps phys := by
  push_neg at hcond
  rcases hinv with ⟨h1, h2, h3, h4⟩ | ⟨b, gb, h1, h2, h3, h4, h5, h6, h7⟩
  · exact absurd h1 hcond.1
  · refine .inr ⟨b, gb, h1, by omega, h3, h4, h5, fun i g' hi hq' => ?_, h7⟩
    rcases Nat.lt_succ_iff_lt_or_eq.mp hi with hi | hi
    · exact h6 i g' hi hq'
    · subst hi
      have := trialQual_unique env cff aP i g g' hq hq'
      subst this
      rw [h4] at hcond
      exact_mod_cast hcond.2

/-- The trial loop preserves the selector invariant, advancing its bound to
the number of entered iterations. -/
theorem runFrom_bestInv (env : Env) (cff aP : Nat) :
    ∀ fuel t s tf ex s', runFrom env cff aP fuel t s = (tf, ex, s') →
      bestInv env cff aP t s.best s.bestGaps s.phys →
      bestInv env cff aP (entEnd tf ex) s'.best s'.bestGaps s'.phys := by
  intro fuel
  induction fuel with
  | zero =>
    intro t s tf ex s' h hinv
    simp only [runFrom] at h
    injection h with h1 h2
    injection h2 with h2 h3
    subst h1; subst h2; subst h3
    exact hinv
  | succ fuel ih =>
    intro t s tf ex s' h hinv
    simp only [runFrom] at h
    split at h
    · rename_i ha
      injection h with h1 h2
      injection h2 with h2 h3
      subst h1; subst h2; subst h3
      exact bestInv_extend env cff aP t _ _ _ hinv (fun g hq => hq.1 ha)
    · rename_i ha
      split at h
      · rename_i hm
        split at h
        · rename_i heq
          injection h with h1 h2
          injection h2 with h2 h3
          subst h1; subst h2; subst h3
          refine bestInv_extend env cff aP t _ _ _ hinv (fun g hq => ?_)
          rw [hq.2.2] at heq
          exact WalkResult.noConfusion heq
        · rename_i heq
          refine ih _ _ _ _ _ h ?_
          refine bestInv_extend env cff aP t _ _ _ hinv (fun g hq => ?_)
          rw [hq.2.2] at heq
          exact WalkResult.noConfusion heq
        · rename_i g heq
          split at h
          · rename_i hcond
            have hq : trialQual env cff aP t g := ⟨ha, by rename_i hmm; exact hm, heq⟩
            split at h
            · rename_i hg0
              subst hg0
              injection h with h1 h2
              injection h2 with h2 h3
              subst h1; subst h2; subst h3
              exact bestInv_update env cff aP t _ _ _ _ hinv hq hcond
            · refine ih _ _ _ _ _ h ?_
              exact bestInv_update env cff aP t _ _ _ _ hinv hq hcond
          · rename_i hcond
            have hq : trialQual env cff aP t g := ⟨ha, hm, heq⟩
            refine ih _ _ _ _ _ h ?_
            exact bestInv_keep env cff aP t _ _ _ _ hinv hq hcond
      · rename_i hm
        injection h with h1 h2
        injection h2 with h2 h3
        subst h1; subst h2; subst h3
        refine bestInv_extend env cff aP t _ _ _ hinv (fun g hq => ?_)
        rw [hq.2.1] at hm
        exact hm (by simp)

/-- Zero-gap early exit: if the selector state is initial or holds a positive
gap count (which is invariant along the loop), then as soon as an entered
trial qualifies with zero gaps the loop breaks at that trial with it
selected. -/
theorem runFrom_zeroGap (env : Env) (cff aP : Nat) :
    ∀ fuel t s tf ex s', runFrom env cff aP fuel t s = (tf, ex, s') →
      ((s.best = -1 ∧ s.bestGaps = -1) ∨ 0 < s.bestGaps) →
      ∀ u, t ≤ u → u < entEnd tf ex → trialQual env cff aP u 0 →
        tf = u ∧ ex = Exit.brk ∧ s'.best = (u : Int) ∧ s'.bestGaps = 0 := by
  intro fuel
  induction fuel with
  | zero =>
    intro t s tf ex s' h hz u h1 h2 hq
    simp only [runFrom] at h
    injection h with ha hb
    injection hb with hb hc
    subst ha; subst hb
    simp only [entEnd] at h2
    omega
  | succ fuel ih =>
    intro t s tf ex s' h hz u h1 h2 hq
    simp only [runFrom] at h
    split at h
    · rename_i ha
      injection h with hx hy
      injection hy with hy hzz
      subst hx; subst hy
      simp only [entEnd] at h2
      have : u = t := by omega
      subst this
      exact absurd ha hq.1
    · rename_i ha
      split at h
      · rename_i hm
        split at h
        · rename_i heq
          injection h with hx hy
          injection hy with hy hzz
          subst hx; subst hy
          simp only [entEnd] at h2
          have : u = t := by omega
          subst this
          rw [hq.2.2] at heq
          exact WalkResult.noConfusion heq
        · rename_i heq
          rcases Nat.eq_or_lt_of_le h1 with hut | hut
          · subst hut
            rw [hq.2.2] at heq
            exact WalkResult.noConfusion heq
          · exact ih _ _ _ _ _ h hz u hut h2 hq
        · rename_i g heq
          have hqt : trialQual env cff aP t g := ⟨ha, hm, heq⟩
          split at h
          · rename_i hcond
            split at h
            · rename_i hg0
              subst hg0
              injection h with hx hy
              injection hy with hy hzz
              subst hx; subst hy; subst hzz
              simp only [entEnd] at h2
              have : u = t := by omega
              subst this
              exact ⟨rfl, rfl, rfl, rfl⟩
            · rename_i hg0
              rcases Nat.eq_or_lt_of_le h1 with hut | hut
              · subst hut
                exact absurd (trialQual_unique env cff aP t g 0 hqt hq) hg0
              · refine ih _ _ _ _ _ h (.inr ?_) u hut h2 hq
                simp only []
                omega
          · rename_i hcond
            rcases Nat.eq_or_lt_of_le h1 with hut | hut
            · subst hut
              have h0 : g = 0 := trialQual_unique env cff aP t g 0 hqt hq
              subst h0
              rcases hz with ⟨hb, hg⟩ | hg
              · exact absurd (.inl hb) hcond
              · exact absurd (.inr (by omega)) hcond
            · exact ih _ _ _ _ _ h hz u hut h2 hq
      · rename_i hm
        injection h with hx hy
        injection hy with hy hzz
        subst hx; subst hy
        simp only [entEnd] at h2
        have : u = t := by omega
        subst this
        rw [hq.2.1] at hm
        exact (hm (by simp)).elim


/-- Membership in the cleanup loop's unpin/release list: exactly the slots
below the start index that are neither the best block nor null. -/
theorem cleanupList_mem (blocks : Nat → Nat) (best : Int) :
    ∀ cnt u a, (u, a) ∈ cleanupList blocks best cnt ↔
      (u < cnt ∧ (u : Int) ≠ best ∧ blocks u = a ∧ a ≠ 0) := by
  intro cnt
  induction cnt with
  | zero =>
    intro u a
    simp [cleanupList]
  | succ cnt ih =>
    intro u a
    simp only [cleanupList, List.mem_append]
    constructor
    · intro h
      rcases h with h | h
      · split at h
        · rename_i hc
          simp only [List.mem_singleton, Prod.mk.injEq] at h
          obtain ⟨rfl, rfl⟩ := h
          exact ⟨by omega, hc.1, rfl, hc.2⟩
        · simp at h
      · have := (ih u a).mp h
        exact ⟨by omega, this.2.1, this.2.2.1, this.2.2.2⟩
    · rintro ⟨h1, h2, h3, h4⟩
      rcases Nat.lt_succ_iff_lt_or_eq.mp h1 with h1 | h1
      · exact .inr ((ih u a).mpr ⟨h1, h2, h3, h4⟩)
      · subst h1
        refine .inl ?_
        rw [if_pos ⟨h2, by rw [h3]; exact h4⟩]
        simp [h3]

/-- The cleanup loop frees nothing when it visits at most the nulled slot 0. -/
theorem cleanupList_nil (blocks : Nat → Nat) (best : Int) (h0 : blocks 0 = 0) :
    ∀ cnt, cnt ≤ 1 → cleanupList blocks best cnt = [] := by
  intro cnt hc
  match cnt, hc with
  | 0, _ => rfl
  | 1, _ =>
    simp only [cleanupList]
    rw [if_neg]
    · rfl
    · rintro ⟨-, hb⟩
      exact hb h0

/-- The attempt budget, as a natural number of iterations, is bounded by the
hard cap and by the mathematical `avail / pagesPerTrial * 3 / 4`. -/
theorem nT_toNat_le (p avail sizeN : Nat) :
    (numTrialsOf p avail sizeN).toNat ≤ MAX_ATTEMPT ∧
    (numTrialsOf p avail sizeN).toNat ≤ avail / (sizeN / p) * 3 / 4 := by
  unfold numTrialsOf toInt32 MAX_ATTEMPT
  have hlt : avail / (sizeN / p) * 3 % U32 / 4 < U32 := by
    have h1 : avail / (sizeN / p) * 3 % U32 < U32 := Nat.mod_lt _ (by unfold U32; norm_num)
    have h2 : avail / (sizeN / p) * 3 % U32 / 4 ≤ avail / (sizeN / p) * 3 % U32 :=
      Nat.div_le_self _ _
    omega
  have hle : avail / (sizeN / p) * 3 % U32 / 4 ≤ avail / (sizeN / p) * 3 / 4 :=
    Nat.div_le_div_right (Nat.mod_le _ _)
  have hmm : avail / (sizeN / p) * 3 % U32 / 4 % U32 = avail / (sizeN / p) * 3 % U32 / 4 :=
    Nat.mod_eq_of_lt hlt
  simp only [hmm]
  split_ifs <;> constructor <;> omega

/-- When the pagemap file opens, the loop phase is the trial loop itself. -/
theorem loopOut_open (env : Env) (b0 : Nat → Nat) (sz : Nat)
    (hpm : env.pagemapOpens = true) :
    loopOut env b0 sz =
      runFrom env (cffOf env) (aPOf env sz) (nTOf env sz).toNat 0 (initSt b0) := by
  simp [loopOut, hpm]

/-- When the pagemap file fails to open, the loop never starts. -/
theorem loopOut_noopen (env : Env) (b0 : Nat → Nat) (sz : Nat)
    (hpm : env.pagemapOpens = false) :
    loopOut env b0 sz = (0, Exit.noopen, initSt b0) := by
  simp [loopOut, hpm]

/-- The call result, written out from the loop output. -/
theorem call_eq (env : Env) (b0 : Nat → Nat) (sz tf : Nat) (ex : Exit) (s' : St)
    (hL : loopOut env b0 sz = (tf, ex, s')) :
    allocate_phys_mem env b0 sz =
      ⟨s'.phys, s'.best, s'.bestGaps, nTOf env sz, tf, ex, entEnd tf ex,
        s'.allocs, s'.mlocks, s'.reads, s'.blocks,
        cleanupList s'.blocks s'.best
          ((if (tf : Int) = nTOf env sz then (tf : Int) - 1 else (tf : Int)) + 1).toNat,
        sizeNOf env sz⟩ := by
  unfold allocate_phys_mem
  rw [hL]


/-- The cleanup loop's visit count (the `trial == numTrials` correction of
lines 198-200, plus one) equals the number of entered iterations — except when
a normal exit happened with a non-positive budget, in which case at most the
nulled slot 0 is visited. -/
theorem call_count (env : Env) (b0 : Nat → Nat) (sz tf : Nat) (ex : Exit) (s' : St)
    (hL : runFrom env (cffOf env) (aPOf env sz) (nTOf env sz).toNat 0 (initSt b0) =
      (tf, ex, s')) :
    ((if (tf : Int) = nTOf env sz then (tf : Int) - 1 else (tf : Int)) + 1).toNat =
        entEnd tf ex ∨
      (entEnd tf ex = 0 ∧
        ((if (tf : Int) = nTOf env sz then (tf : Int) - 1 else (tf : Int)) + 1).toNat ≤ 1) := by
  obtain ⟨h1, h2, h3, h4⟩ := runFrom_shape env (cffOf env) (aPOf env sz) _ _ _ _ _ _ hL
  cases ex with
  | normal =>
    have htf : tf = (nTOf env sz).toNat := by have := h2 rfl; omega
    by_cases hN : 0 < nTOf env sz
    · left
      have he : (tf : Int) = nTOf env sz := by omega
      rw [if_pos he]
      simp only [entEnd]
      omega
    · right
      have hN0 : (nTOf env sz).toNat = 0 := by omega
      refine ⟨by simp only [entEnd]; omega, ?_⟩
      split_ifs <;> omega
  | brk =>
    left
    have hlt : tf + 1 ≤ (nTOf env sz).toNat := by
      have := h3 (by simp)
      omega
    rw [if_neg (by omega)]
    simp only [entEnd]
    omega
  | abort =>
    left
    have hlt : tf + 1 ≤ (nTOf env sz).toNat := by
      have := h3 (by simp)
      omega
    rw [if_neg (by omega)]
    simp only [entEnd]
    omega
  | noopen => exact absurd rfl h4


/-- C8: when the computed attempt budget is 0, `allocate_phys_mem` returns
null without invoking the backing allocator or the pinning primitive at all
(and the cleanup loop releases nothing). -/
theorem C8_zero_budget_returns_null (env : Env) (b0 : Nat → Nat) (sz : Nat)
    (h0 : nTOf env sz = 0) :
    (allocate_phys_mem env b0 sz).ret = 0 ∧
    (allocate_phys_mem env b0 sz).allocs = [] ∧
    (allocate_phys_mem env b0 sz).mlocks = [] ∧
    (allocate_phys_mem env b0 sz).attempted = 0 ∧
    (allocate_phys_mem env b0 sz).cleanup = [] := by
  have hL : loopOut env b0 sz = (0, Exit.normal, initSt b0) ∨
      loopOut env b0 sz = (0, Exit.noopen, initSt b0) := by
    by_cases hpm : env.pagemapOpens
    · left
      rw [loopOut_open env b0 sz hpm, h0]
      rfl
    · right
      exact loopOut_noopen env b0 sz (by simpa using hpm)
  rcases hL with hL | hL <;>
  · rw [call_eq env b0 sz _ _ _ hL]
    refine ⟨rfl, rfl, rfl, rfl, ?_⟩
    have hcnt : ((if ((0 : Nat) : Int) = nTOf env sz then ((0 : Nat) : Int) - 1
        else ((0 : Nat) : Int)) + 1).toNat = 0 := by
      rw [h0]
      simp
    rw [hcnt]
    rfl

/-- C9: `free_phys_mem` reports failure exactly when the unpin primitive
does, and its effect is the unpin followed by the release, for every region
including the null one (the function is total, and `free(NULL)` is a no-op in
the modelled C library). -/
theorem C9_release_path (munlockRes : Nat → Nat → Int) (physBlock allocSize : Nat) :
    (free_phys_mem munlockRes physBlock allocSize).1 = munlockRes physBlock allocSize ∧
    ((free_phys_mem munlockRes physBlock allocSize).1 ≠ 0 ↔
      munlockRes physBlock allocSize ≠ 0) ∧
    (free_phys_mem munlockRes physBlock allocSize).2 =
      [MemEvent.munlockEv physBlock allocSize, MemEvent.freeEv physBlock] :=
  ⟨rfl, Iff.rfl, rfl⟩

/-- C10: the cleanup loop only ever unpins/releases addresses that this call's
allocator invocations stored (never a stale pointer from a previous call, and
never a slot beyond the bookkeeping capacity), and an abort before the first
allocation releases and pins nothing. -/
theorem C10_cleanup_only_this_call (env : Env) (b0 : Nat → Nat) (sz : Nat) :
    (∀ x, x ∈ (allocate_phys_mem env b0 sz).cleanup →
      x ∈ (allocate_phys_mem env b0 sz).allocs ∧ x.2 ≠ 0 ∧ x.1 < MAX_ATTEMPT) ∧
    ((allocate_phys_mem env b0 sz).exit = Exit.noopen →
      (allocate_phys_mem env b0 sz).cleanup = [] ∧
      (allocate_phys_mem env b0 sz).allocs = [] ∧
      (allocate_phys_mem env b0 sz).mlocks = []) := by
  by_cases hpm : env.pagemapOpens
  · rcases hrun : runFrom env (cffOf env) (aPOf env sz) (nTOf env sz).toNat 0 (initSt b0)
      with ⟨tf, ex, s'⟩
    have hL : loopOut env b0 sz = (tf, ex, s') := by
      rw [loopOut_open env b0 sz hpm, hrun]
    rw [call_eq env b0 sz tf ex s' hL]
    obtain ⟨aMono, aSub, aMem, aLen, mSub, rSub⟩ :=
      runFrom_events env (cffOf env) (aPOf env sz) _ _ _ _ _ _ hrun
    obtain ⟨bLow, bMid, bHigh⟩ :=
      runFrom_blocks env (cffOf env) (aPOf env sz) _ _ _ _ _ _ hrun
    obtain ⟨sh1, sh2, sh3, sh4⟩ :=
      runFrom_shape env (cffOf env) (aPOf env sz) _ _ _ _ _ _ hrun
    obtain ⟨heLow, heHigh⟩ := runFrom_entEnd_le env (cffOf env) (aPOf env sz) _ _ _ _ _ _ hrun
    constructor
    · intro x hx
      obtain ⟨u, a⟩ := x
      have hm := (cleanupList_mem s'.blocks s'.best _ u a).mp hx
      rcases call_count env b0 sz tf ex s' hrun with hcnt | ⟨he0, hcnt⟩
      · have hu : u < entEnd tf ex := by omega
        have hbu : s'.blocks u = (env.trials u).alloc := bMid u (Nat.zero_le u) hu
        have ha : a = (env.trials u).alloc := by rw [← hbu]; exact hm.2.2.1.symm
        refine ⟨?_, hm.2.2.2, ?_⟩
        · rw [ha]
          exact aMem u (Nat.zero_le u) hu
        · have := (nT_toNat_le env.pageSize env.availPhysPages (sizeNOf env sz)).1
          unfold nTOf at heHigh
          omega
      · exfalso
        have hu : u = 0 := by omega
        subst hu
        have : s'.blocks 0 = (initSt b0).blocks 0 := bHigh 0 (by omega)
        have h00 : (initSt b0).blocks 0 = 0 := by simp [initSt]
        exact hm.2.2.2 (by rw [← hm.2.2.1, this, h00])
    · intro hex
      exact absurd hex sh4
  · have hL := loopOut_noopen env b0 sz (by simpa using hpm)
    rw [call_eq env b0 sz _ _ _ hL]
    have hnil : cleanupList (initSt b0).blocks (initSt b0).best
        ((if ((0 : Nat) : Int) = nTOf env sz then ((0 : Nat) : Int) - 1
          else ((0 : Nat) : Int)) + 1).toNat = [] := by
      apply cleanupList_nil
      · simp [initSt]
      · split_ifs <;> omega
    constructor
    · intro x hx
      rw [hnil] at hx
      exact absurd hx (List.not_mem_nil x)
    · intro _
      exact ⟨hnil, rfl, rfl⟩


/-- C5: by the end of a call, every region this call's allocator produced that
is not the selected best block appears in the cleanup loop's unpin/release
list; the selected block is never unpinned/released and is exactly the
returned (non-null) address, still held in its slot. -/
theorem C5_nonselected_released (env : Env) (b0 : Nat → Nat) (sz : Nat) :
    (∀ x, x ∈ (allocate_phys_mem env b0 sz).allocs → x.2 ≠ 0 →
      ((x.1 : Int) ≠ (allocate_phys_mem env b0 sz).best) →
      x ∈ (allocate_phys_mem env b0 sz).cleanup) ∧
    (∀ x, x ∈ (allocate_phys_mem env b0 sz).cleanup →
      (x.1 : Int) ≠ (allocate_phys_mem env b0 sz).best) ∧
    ((allocate_phys_mem env b0 sz).best ≠ -1 →
      (allocate_phys_mem env b0 sz).ret ≠ 0 ∧
      (allocate_phys_mem env b0 sz).ret =
        (allocate_phys_mem env b0 sz).blocks (allocate_phys_mem env b0 sz).best.toNat ∧
      ∀ a, ((allocate_phys_mem env b0 sz).best.toNat, a) ∉
        (allocate_phys_mem env b0 sz).cleanup) := by
  by_cases hpm : env.pagemapOpens
  · rcases hrun : runFrom env (cffOf env) (aPOf env sz) (nTOf env sz).toNat 0 (initSt b0)
      with ⟨tf, ex, s'⟩
    have hL : loopOut env b0 sz = (tf, ex, s') := by
      rw [loopOut_open env b0 sz hpm, hrun]
    rw [call_eq env b0 sz tf ex s' hL]
    obtain ⟨aMono, aSub, aMem, aLen, mSub, rSub⟩ :=
      runFrom_events env (cffOf env) (aPOf env sz) _ _ _ _ _ _ hrun
    obtain ⟨bLow, bMid, bHigh⟩ :=
      runFrom_blocks env (cffOf env) (aPOf env sz) _ _ _ _ _ _ hrun
    have hinv := runFrom_bestInv env (cffOf env) (aPOf env sz) _ _ _ _ _ _ hrun
      (.inl ⟨rfl, rfl, rfl, fun i g hi => absurd hi (by omega)⟩)
    refine ⟨?_, ?_, ?_⟩
    · intro x hx hx2 hxb
      obtain ⟨u, a⟩ := x
      rcases aSub (u, a) hx with hmem | ⟨-, hu, ha⟩
      · exact absurd hmem (List.not_mem_nil _)
      · rcases call_count env b0 sz tf ex s' hrun with hcnt | ⟨he0, hcnt⟩
        · refine (cleanupList_mem s'.blocks s'.best _ u a).mpr ⟨by omega, hxb, ?_, hx2⟩
          rw [bMid u (Nat.zero_le u) hu]
          exact ha.symm
        · omega
    · intro x hx
      obtain ⟨u, a⟩ := x
      exact ((cleanupList_mem s'.blocks s'.best _ u a).mp hx).2.1
    · intro hbest
      rcases hinv with ⟨hb, -, -, -⟩ | ⟨b, gb, hb, hblt, hq, hgaps, hphys, hmin, hstrict⟩
      · exact absurd hb hbest
      · have hbt : s'.best.toNat = b := by rw [hb]; exact Int.toNat_natCast b
        refine ⟨by rw [hphys]; exact hq.1, ?_, ?_⟩
        · rw [hbt, hphys]
          show (env.trials b).alloc = s'.blocks b
          exact (bMid b (Nat.zero_le b) hblt).symm
        · intro a hcl
          have := ((cleanupList_mem s'.blocks s'.best _ _ a).mp hcl).2.1
          rw [hbt, hb] at this
          exact this rfl
  · have hL := loopOut_noopen env b0 sz (by simpa using hpm)
    rw [call_eq env b0 sz _ _ _ hL]
    have hnil : cleanupList (initSt b0).blocks (initSt b0).best
        ((if ((0 : Nat) : Int) = nTOf env sz then ((0 : Nat) : Int) - 1
          else ((0 : Nat) : Int)) + 1).toNat = [] := by
      apply cleanupList_nil
      · simp [initSt]
      · split_ifs <;> omega
    refine ⟨?_, ?_, ?_⟩
    · intro x hx
      exact absurd hx (List.not_mem_nil x)
    · intro x hx
      rw [hnil] at hx
      exact absurd hx (List.not_mem_nil x)
    · intro hbest
      exact absurd rfl hbest

/-- C3: whenever some attempted trial qualifies, the call returns the region
of the earliest qualifying trial with the minimum gap count among all
attempted qualifying trials (a later trial wins only with a strictly lower
gap count). -/
theorem C3_min_gap_first_found (env : Env) (b0 : Nat → Nat) (sz t g : Nat)
    (ht : t < (allocate_phys_mem env b0 sz).attempted)
    (hq : trialQual env (cffOf env) (aPOf env sz) t g) :
    ∃ b gb : Nat,
      (allocate_phys_mem env b0 sz).best = (b : Int) ∧
      (allocate_phys_mem env b0 sz).bestGaps = (gb : Int) ∧
      b < (allocate_phys_mem env b0 sz).attempted ∧
      trialQual env (cffOf env) (aPOf env sz) b gb ∧
      (allocate_phys_mem env b0 sz).ret = (env.trials b).alloc ∧
      (∀ i gi, i < (allocate_phys_mem env b0 sz).attempted →
        trialQual env (cffOf env) (aPOf env sz) i gi →
        gb ≤ gi ∧ (gi = gb → b ≤ i)) := by
  by_cases hpm : env.pagemapOpens
  · rcases hrun : runFrom env (cffOf env) (aPOf env sz) (nTOf env sz).toNat 0 (initSt b0)
      with ⟨tf, ex, s'⟩
    have hL : loopOut env b0 sz = (tf, ex, s') := by
      rw [loopOut_open env b0 sz hpm, hrun]
    rw [call_eq env b0 sz tf ex s' hL] at ht ⊢
    have hinv := runFrom_bestInv env (cffOf env) (aPOf env sz) _ _ _ _ _ _ hrun
      (.inl ⟨rfl, rfl, rfl, fun i g hi => absurd hi (by omega)⟩)
    rcases hinv with ⟨-, -, -, hnone⟩ | ⟨b, gb, hb, hblt, hbq, hgaps, hphys, hmin, hstrict⟩
    · exact absurd hq (hnone t g ht)
    · refine ⟨b, gb, hb, hgaps, hblt, hbq, hphys, fun i gi hi hqi => ?_⟩
      refine ⟨hmin i gi hi hqi, fun hgi => ?_⟩
      by_contra hbi
      have := hstrict i gi (by omega) hqi
      omega
  · have hL := loopOut_noopen env b0 sz (by simpa using hpm)
    rw [call_eq env b0 sz _ _ _ hL] at ht
    simp only [entEnd] at ht
    omega

/-- C7: once an attempted trial qualifies with zero gaps, it is selected and
the loop breaks at it: no later allocator call, pin, or introspection read is
recorded (every event is tagged with a trial index at most the winner's). -/
theorem C7_zero_gap_stops_search (env : Env) (b0 : Nat → Nat) (sz t : Nat)
    (ht : t < (allocate_phys_mem env b0 sz).attempted)
    (hq : trialQual env (cffOf env) (aPOf env sz) t 0) :
    (allocate_phys_mem env b0 sz).best = (t : Int) ∧
    (allocate_phys_mem env b0 sz).bestGaps = 0 ∧
    (allocate_phys_mem env b0 sz).attempted = t + 1 ∧
    (allocate_phys_mem env b0 sz).exit = Exit.brk ∧
    (∀ x, x ∈ (allocate_phys_mem env b0 sz).allocs → x.1 ≤ t) ∧
    (∀ x, x ∈ (allocate_phys_mem env b0 sz).mlocks → x.1 ≤ t) ∧
    (∀ x, x ∈ (allocate_phys_mem env b0 sz).reads → x.1 ≤ t) := by
  by_cases hpm : env.pagemapOpens
  · rcases hrun : runFrom env (cffOf env) (aPOf env sz) (nTOf env sz).toNat 0 (initSt b0)
      with ⟨tf, ex, s'⟩
    have hL : loopOut env b0 sz = (tf, ex, s') := by
      rw [loopOut_open env b0 sz hpm, hrun]
    rw [call_eq env b0 sz tf ex s' hL] at ht ⊢
    obtain ⟨htf, hex, hbest, hgaps⟩ :=
      runFrom_zeroGap env (cffOf env) (aPOf env sz) _ _ _ _ _ _ hrun
        (.inl ⟨rfl, rfl⟩) t (Nat.zero_le t) ht hq
    subst htf
    subst hex
    obtain ⟨aMono, aSub, aMem, aLen, mSub, rSub⟩ :=
      runFrom_events env (cffOf env) (aPOf env sz) _ _ _ _ _ _ hrun
    refine ⟨hbest, hgaps, rfl, rfl, ?_, ?_, ?_⟩
    · intro x hx
      rcases aSub x hx with hmem | ⟨-, hu, -⟩
      · exact absurd hmem (List.not_mem_nil _)
      · simp only [entEnd] at hu
        omega
    · intro x hx
      rcases mSub x hx with hmem | ⟨-, hu⟩
      · exact absurd hmem (List.not_mem_nil _)
      · simp only [entEnd] at hu
        omega
    · intro x hx
      rcases rSub x hx with hmem | ⟨-, hu⟩
      · exact absurd hmem (List.not_mem_nil _)
      · simp only [entEnd] at hu
        omega
  · have hL := loopOut_noopen env b0 sz (by simpa using hpm)
    rw [call_eq env b0 sz _ _ _ hL] at ht
    simp only [entEnd] at ht
    omega


/-- C1 (amended): when a trial's first frame read returns the sentinel 0
(`exit = abort`) and no earlier trial had been selected as best candidate,
the call returns null and every region this call actually allocated is
unpinned and released by the cleanup loop. -/
theorem C1_abort_releases_all (env : Env) (b0 : Nat → Nat) (sz : Nat)
    (hab : (allocate_phys_mem env b0 sz).exit = Exit.abort)
    (hbest : (allocate_phys_mem env b0 sz).best = -1) :
    (allocate_phys_mem env b0 sz).ret = 0 ∧
    (∀ x, x ∈ (allocate_phys_mem env b0 sz).allocs → x.2 ≠ 0 →
      x ∈ (allocate_phys_mem env b0 sz).cleanup) := by
  by_cases hpm : env.pagemapOpens
  · rcases hrun : runFrom env (cffOf env) (aPOf env sz) (nTOf env sz).toNat 0 (initSt b0)
      with ⟨tf, ex, s'⟩
    have hL : loopOut env b0 sz = (tf, ex, s') := by
      rw [loopOut_open env b0 sz hpm, hrun]
    rw [call_eq env b0 sz tf ex s' hL] at hab hbest ⊢
    have hbest' : s'.best = -1 := hbest
    have hinv := runFrom_bestInv env (cffOf env) (aPOf env sz) _ _ _ _ _ _ hrun
      (.inl ⟨rfl, rfl, rfl, fun i g hi => absurd hi (by omega)⟩)
    obtain ⟨aMono, aSub, aMem, aLen, mSub, rSub⟩ :=
      runFrom_events env (cffOf env) (aPOf env sz) _ _ _ _ _ _ hrun
    obtain ⟨bLow, bMid, bHigh⟩ :=
      runFrom_blocks env (cffOf env) (aPOf env sz) _ _ _ _ _ _ hrun
    constructor
    · rcases hinv with ⟨-, -, hph, -⟩ | ⟨b, gb, hb, -⟩
      · exact hph
      · rw [hbest'] at hb
        exact absurd hb.symm (by omega)
    · intro x hx hx2
      obtain ⟨u, a⟩ := x
      rcases aSub (u, a) hx with hmem | ⟨-, hu, ha⟩
      · exact absurd hmem (List.not_mem_nil _)
      · rcases call_count env b0 sz tf ex s' hrun with hcnt | ⟨he0, hcnt⟩
        · refine (cleanupList_mem s'.blocks s'.best _ u a).mpr
            ⟨by omega, by rw [hbest']; omega, ?_, hx2⟩
          rw [bMid u (Nat.zero_le u) hu]
          exact ha.symm
        · omega
  · have hL := loopOut_noopen env b0 sz (by simpa using hpm)
    rw [call_eq env b0 sz _ _ _ hL] at hab
    exact Exit.noConfusion hab

/-- C2: the scorer classifies each consecutive frame pair exactly as the spec
says: contiguous when `curr = prev+1` (in `uint32_t`); otherwise a single
cache-compatible gap when `((prev+1) | curr) & CacheFriendlyMask = 0`, which
holds iff both `prev+1` and `curr` are exact multiples of
`CacheFriendlyMask + 1`; otherwise the walk stops (`disq`) and such a trial
never qualifies as a candidate.  The page size is `2^k` as the OS guarantees
a power of two. -/
theorem C2_scorer_classification (k prev curr : Nat) (frames : Nat → Nat)
    (rem page gaps : Nat) (env : Env) (aP t g : Nat) :
    (classifyPair (cacheFriendlyFactor (2 ^ k)) prev curr = PairClass.contiguous ↔
      curr = (prev + 1) % U32) ∧
    (classifyPair (cacheFriendlyFactor (2 ^ k)) prev curr = PairClass.gap ↔
      (curr ≠ (prev + 1) % U32 ∧ (cacheFriendlyFactor (2 ^ k) + 1) ∣ (prev + 1) ∧
        (cacheFriendlyFactor (2 ^ k) + 1) ∣ curr)) ∧
    (classifyPair (cacheFriendlyFactor (2 ^ k)) prev curr = PairClass.disqualify ↔
      (curr ≠ (prev + 1) % U32 ∧ ¬((cacheFriendlyFactor (2 ^ k) + 1) ∣ (prev + 1) ∧
        (cacheFriendlyFactor (2 ^ k) + 1) ∣ curr))) ∧
    (classifyPair (cacheFriendlyFactor (2 ^ k)) prev (frames page % U32) =
        PairClass.contiguous →
      walkFrom (cacheFriendlyFactor (2 ^ k)) frames (rem + 1) page prev gaps =
        ((walkFrom (cacheFriendlyFactor (2 ^ k)) frames rem (page + 1)
            (frames page % U32) gaps).1,
          (walkFrom (cacheFriendlyFactor (2 ^ k)) frames rem (page + 1)
            (frames page % U32) gaps).2 + 1)) ∧
    (classifyPair (cacheFriendlyFactor (2 ^ k)) prev (frames page % U32) =
        PairClass.gap →
      walkFrom (cacheFriendlyFactor (2 ^ k)) frames (rem + 1) page prev gaps =
        ((walkFrom (cacheFriendlyFactor (2 ^ k)) frames rem (page + 1)
            (frames page % U32) (gaps + 1)).1,
          (walkFrom (cacheFriendlyFactor (2 ^ k)) frames rem (page + 1)
            (frames page % U32) (gaps + 1)).2 + 1)) ∧
    (classifyPair (cacheFriendlyFactor (2 ^ k)) prev (frames page % U32) =
        PairClass.disqualify →
      walkFrom (cacheFriendlyFactor (2 ^ k)) frames (rem + 1) page prev gaps =
        (WalkResult.disq, 1)) ∧
    ((walkPages (cacheFriendlyFactor (2 ^ k)) (env.trials t).frames aP).1 =
        WalkResult.disq →
      ¬ trialQual env (cacheFriendlyFactor (2 ^ k)) aP t g) := by
  have key : ∀ pv cu : Nat,
      (cacheFriendlyFactor (2 ^ k) &&& (((pv + 1) % U32) ||| cu) = 0 ↔
        ((cacheFriendlyFactor (2 ^ k) + 1) ∣ (pv + 1) ∧
          (cacheFriendlyFactor (2 ^ k) + 1) ∣ cu)) := by
    intro pv cu
    obtain ⟨e, he0, he20, hcff⟩ := cacheFriendlyFactor_mask k
    rw [hcff]
    have h1 : 2 ^ e - 1 + 1 = 2 ^ e := by have := Nat.two_pow_pos e; omega
    have hd : (2 : Nat) ^ e ∣ U32 := by
      unfold U32
      exact pow_dvd_pow 2 (by omega)
    rw [h1, mask_lor_eq_zero_iff, Nat.dvd_mod_iff hd]
  refine ⟨?_, ?_, ?_, ?_, ?_, ?_, ?_⟩
  · unfold classifyPair
    split_ifs with h1 h2 <;> simp [h1]
  · unfold classifyPair
    split_ifs with h1 h2
    · simp [h1]
    · simp [h1, (key prev curr).mp h2]
    · have hnd : ¬((cacheFriendlyFactor (2 ^ k) + 1) ∣ (prev + 1) ∧
          (cacheFriendlyFactor (2 ^ k) + 1) ∣ curr) :=
        fun hdiv => h2 ((key prev curr).mpr hdiv)
      simp [h1, hnd]
  · unfold classifyPair
    split_ifs with h1 h2
    · simp [h1]
    · simp [h1, (key prev curr).mp h2]
    · have hnd : ¬((cacheFriendlyFactor (2 ^ k) + 1) ∣ (prev + 1) ∧
          (cacheFriendlyFactor (2 ^ k) + 1) ∣ curr) :=
        fun hdiv => h2 ((key prev curr).mpr hdiv)
      simp [h1, hnd]
  · intro h
    simp only [walkFrom, h]
  · intro h
    simp only [walkFrom, h]
  · intro h
    simp only [walkFrom, h]
  · intro hdsq hq
    exact WalkResult.noConfusion (hdsq.symm.trans hq.2.2)


/-- The normalization's guarantees, for a power-of-two page size and a request
whose page round-up does not overflow 32 bits. -/
theorem normalizeSize_props (k s : Nat) (hk : k ≤ 32) (hno : s + 2 ^ k ≤ 2 ^ 32) :
    0 < normalizeSize (2 ^ k) s ∧ normalizeSize (2 ^ k) s % 2 ^ k = 0 ∧
      CACHE_GRANULARITY ≤ normalizeSize (2 ^ k) s ∧
      specRoundUp (2 ^ k) s ≤ normalizeSize (2 ^ k) s := by
  have hp : 0 < 2 ^ k := Nat.two_pow_pos k
  rw [normalizeSize_eq k s hk hno]
  have h1 : specRoundUp (2 ^ k) s % 2 ^ k = 0 := by
    unfold specRoundUp
    exact Nat.mul_mod_right _ _
  have h2 : (2 : Nat) ^ k % 2 ^ k = 0 := Nat.mod_self _
  have h3 : CACHE_GRANULARITY % 2 ^ k = 0 ∨ CACHE_GRANULARITY < 2 ^ k := by
    by_cases hk20 : k ≤ 20
    · left
      have hdv : (2 : Nat) ^ k ∣ 2 ^ 20 := pow_dvd_pow 2 hk20
      have hcg : CACHE_GRANULARITY = 2 ^ 20 := by unfold CACHE_GRANULARITY; norm_num
      rw [hcg]
      exact Nat.mod_eq_zero_of_dvd hdv
    · right
      have hcg : CACHE_GRANULARITY = 2 ^ 20 := by unfold CACHE_GRANULARITY; norm_num
      rw [hcg]
      exact Nat.pow_lt_pow_right (by norm_num) (by omega)
  refine ⟨by omega, ?_, by omega, by omega⟩
  rcases h3 with h3 | h3
  · rcases Nat.le_total (max CACHE_GRANULARITY (specRoundUp (2 ^ k) s)) (2 ^ k) with hm | hm
    · rw [Nat.max_eq_left hm]
      exact h2
    · rw [Nat.max_eq_right hm]
      rcases Nat.le_total (specRoundUp (2 ^ k) s) CACHE_GRANULARITY with hm2 | hm2
      · rw [Nat.max_eq_left hm2]
        exact h3
      · rw [Nat.max_eq_right hm2]
        exact h1
  · have hcase : max CACHE_GRANULARITY (specRoundUp (2 ^ k) s) ≤ 2 ^ k ∨
        max CACHE_GRANULARITY (specRoundUp (2 ^ k) s) = specRoundUp (2 ^ k) s := by
      rcases Nat.le_total CACHE_GRANULARITY (specRoundUp (2 ^ k) s) with hm | hm
      · right
        exact Nat.max_eq_right hm
      · left
        omega
    rcases hcase with hm | hm
    · rw [Nat.max_eq_left hm]
      exact h2
    · rw [hm]
      rcases Nat.le_total (specRoundUp (2 ^ k) s) (2 ^ k) with hm2 | hm2
      · rw [Nat.max_eq_left hm2]
        exact h2
      · rw [Nat.max_eq_right hm2]
        exact h1

/-- C4 (amended): for every request `s` whose round-up to the page size fits
in `uint32_t` (`s ≤ 2^32 − PageSize`), the size normalized by
`allocate_phys_mem` is a positive multiple of the page size, at least
`CACHE_GRANULARITY`, and at least `s` rounded up to the next page multiple. -/
theorem C4_normalized_size (env : Env) (b0 : Nat → Nat) (sz k : Nat)
    (hps : env.pageSize = 2 ^ k) (hk : k ≤ 32) (hno : sz + 2 ^ k ≤ 2 ^ 32) :
    0 < (allocate_phys_mem env b0 sz).sizeN ∧
    (allocate_phys_mem env b0 sz).sizeN % env.pageSize = 0 ∧
    CACHE_GRANULARITY ≤ (allocate_phys_mem env b0 sz).sizeN ∧
    specRoundUp env.pageSize sz ≤ (allocate_phys_mem env b0 sz).sizeN := by
  have hfield : (allocate_phys_mem env b0 sz).sizeN = normalizeSize env.pageSize sz := by
    rcases hL : loopOut env b0 sz with ⟨tf, ex, s'⟩
    rw [call_eq env b0 sz tf ex s' hL]
    rfl
  rw [hfield, hps]
  exact normalizeSize_props k sz hk hno

/-- C6: the number of trials attempted (= allocator invocations) is bounded
both by `availPhysPages / (normalizedSize / pageSize) * 3 / 4` in exact
integer arithmetic and by the hard cap `MAX_ATTEMPT`, and every bookkeeping
slot touched (by a trial or by the cleanup loop) has index below
`MAX_ATTEMPT`. -/
theorem C6_attempts_bounded (env : Env) (b0 : Nat → Nat) (sz : Nat) :
    (allocate_phys_mem env b0 sz).attempted ≤
      env.availPhysPages / (sizeNOf env sz / env.pageSize) * 3 / 4 ∧
    (allocate_phys_mem env b0 sz).attempted ≤ MAX_ATTEMPT ∧
    (allocate_phys_mem env b0 sz).allocs.length = (allocate_phys_mem env b0 sz).attempted ∧
    (∀ x, x ∈ (allocate_phys_mem env b0 sz).allocs → x.1 < MAX_ATTEMPT) ∧
    (∀ x, x ∈ (allocate_phys_mem env b0 sz).cleanup → x.1 < MAX_ATTEMPT) := by
  have hnt := nT_toNat_le env.pageSize env.availPhysPages (sizeNOf env sz)
  have hMA : (0 : Nat) < MAX_ATTEMPT := by unfold MAX_ATTEMPT; norm_num
  by_cases hpm : env.pagemapOpens
  · rcases hrun : runFrom env (cffOf env) (aPOf env sz) (nTOf env sz).toNat 0 (initSt b0)
      with ⟨tf, ex, s'⟩
    have hL : loopOut env b0 sz = (tf, ex, s') := by
      rw [loopOut_open env b0 sz hpm, hrun]
    rw [call_eq env b0 sz tf ex s' hL]
    obtain ⟨heLow, heHigh⟩ := runFrom_entEnd_le env (cffOf env) (aPOf env sz) _ _ _ _ _ _ hrun
    have hN : (nTOf env sz).toNat ≤ MAX_ATTEMPT ∧
        (nTOf env sz).toNat ≤ env.availPhysPages / (sizeNOf env sz / env.pageSize) * 3 / 4 := by
      unfold nTOf
      exact hnt
    obtain ⟨aMono, aSub, aMem, aLen, mSub, rSub⟩ :=
      runFrom_events env (cffOf env) (aPOf env sz) _ _ _ _ _ _ hrun
    refine ⟨?_, ?_, ?_, ?_, ?_⟩
    · show entEnd tf ex ≤ env.availPhysPages / (sizeNOf env sz / env.pageSize) * 3 / 4
      omega
    · show entEnd tf ex ≤ MAX_ATTEMPT
      omega
    · show s'.allocs.length = entEnd tf ex
      rw [aLen]
      simp [initSt]
    · intro x hx
      rcases aSub x hx with hmem | ⟨-, hu, -⟩
      · exact absurd hmem (List.not_mem_nil _)
      · show x.1 < MAX_ATTEMPT
        omega
    · intro x hx
      obtain ⟨u, a⟩ := x
      have hm := (cleanupList_mem s'.blocks s'.best _ u a).mp hx
      show u < MAX_ATTEMPT
      rcases call_count env b0 sz tf ex s' hrun with hcnt | ⟨he0, hcnt⟩
      · omega
      · omega
  · have hL := loopOut_noopen env b0 sz (by simpa using hpm)
    rw [call_eq env b0 sz _ _ _ hL]
    have hnil : cleanupList (initSt b0).blocks (initSt b0).best
        ((if ((0 : Nat) : Int) = nTOf env sz then ((0 : Nat) : Int) - 1
          else ((0 : Nat) : Int)) + 1).toNat = [] := by
      apply cleanupList_nil
      · simp [initSt]
      · split_ifs <;> omega
    refine ⟨by simp [entEnd], by simp [entEnd], by simp [entEnd, initSt], ?_, ?_⟩
    · intro x hx
      exact absurd hx (List.not_mem_nil x)
    · intro x hx
      rw [hnil] at hx
      exact absurd hx (List.not_mem_nil x)


/-- Concrete call for C1's counterexample: page size `2^19` (so each trial has
2 pages and the mask is 1), 8 available pages (budget 3).  Trial 0 qualifies
with one cache-compatible gap (frames 1, 4); trial 1's first frame read
returns the sentinel 0. -/
def envC1x : Env :=
  ⟨2 ^ 19, 8, true, fun t =>
    if t = 0 then ⟨100, true, fun p => if p = 0 then 1 else 4⟩
    else ⟨200, true, fun _ => 0⟩⟩

/-- C1 (counterexample): in `envC1x` the sentinel abort happens at trial 1,
yet the call returns trial 0's non-null region and the cleanup loop releases
only trial 1 — the previously selected best candidate is neither returned as
null nor released, contradicting the claim. -/
theorem C1_counterexample :
    (allocate_phys_mem envC1x (fun _ => 999) 0).exit = Exit.abort ∧
    (envC1x.trials 1).frames 0 % U32 = 0 ∧
    (1, 200) ∈ (allocate_phys_mem envC1x (fun _ => 999) 0).allocs ∧
    (0, 100) ∈ (allocate_phys_mem envC1x (fun _ => 999) 0).allocs ∧
    (allocate_phys_mem envC1x (fun _ => 999) 0).ret = 100 ∧
    ¬ (allocate_phys_mem envC1x (fun _ => 999) 0).ret = 0 ∧
    (allocate_phys_mem envC1x (fun _ => 999) 0).cleanup = [(1, 200)] := by
  decide

/-- Concrete call for C1's amended claim: the sentinel hits already at trial
0, before any candidate was selected. -/
def envC1w : Env := ⟨2 ^ 19, 8, true, fun _ => ⟨100, true, fun _ => 0⟩⟩

/-- C1 (witness): instantiates the amended claim on `envC1w`. -/
theorem C1_witness :
    ((allocate_phys_mem envC1w (fun _ => 999) 0).exit = Exit.abort ∧
      (allocate_phys_mem envC1w (fun _ => 999) 0).best = -1) ∧
    ((allocate_phys_mem envC1w (fun _ => 999) 0).ret = 0 ∧
      (∀ x, x ∈ (allocate_phys_mem envC1w (fun _ => 999) 0).allocs → x.2 ≠ 0 →
        x ∈ (allocate_phys_mem envC1w (fun _ => 999) 0).cleanup)) :=
  ⟨⟨by decide, by decide⟩,
    C1_abort_releases_all envC1w (fun _ => 999) 0 (by decide) (by decide)⟩

/-- An inert environment (used to instantiate universally quantified
environment arguments at a concrete value). -/
def envInert : Env := ⟨4096, 1, true, fun _ => ⟨0, false, fun _ => 0⟩⟩

/-- C2 (witness): the pair (1, 4) under page size `2^19` (mask 1) is a
recorded gap, and the equivalence of the mask test with divisibility holds at
it. -/
theorem C2_witness :
    (classifyPair (cacheFriendlyFactor (2 ^ 19)) 1 4 = PairClass.gap ↔
      ((4 : Nat) ≠ (1 + 1) % U32 ∧ (cacheFriendlyFactor (2 ^ 19) + 1) ∣ (1 + 1) ∧
        (cacheFriendlyFactor (2 ^ 19) + 1) ∣ 4)) ∧
    classifyPair (cacheFriendlyFactor (2 ^ 19)) 1 4 = PairClass.gap :=
  ⟨(C2_scorer_classification 19 1 4 (fun _ => 0) 0 0 0 envInert 2 0 0).2.1, by decide⟩

/-- Concrete call for C3/C5/C6: trial 0 is disqualified, trials 1 and 2 both
qualify with one gap; the budget is 3, so the tie is kept by trial 1. -/
def envC3w : Env :=
  ⟨2 ^ 19, 8, true, fun t =>
    if t = 0 then ⟨100, true, fun p => if p = 0 then 1 else 3⟩
    else if t = 1 then ⟨200, true, fun p => if p = 0 then 1 else 4⟩
    else ⟨300, true, fun p => if p = 0 then 5 else 8⟩⟩

/-- C3 (witness): instantiates the selection claim on `envC3w` at the
qualifying trial 1. -/
theorem C3_witness :
    (1 < (allocate_phys_mem envC3w (fun _ => 999) 0).attempted ∧
      trialQual envC3w (cffOf envC3w) (aPOf envC3w 0) 1 1) ∧
    (∃ b gb : Nat,
      (allocate_phys_mem envC3w (fun _ => 999) 0).best = (b : Int) ∧
      (allocate_phys_mem envC3w (fun _ => 999) 0).bestGaps = (gb : Int) ∧
      b < (allocate_phys_mem envC3w (fun _ => 999) 0).attempted ∧
      trialQual envC3w (cffOf envC3w) (aPOf envC3w 0) b gb ∧
      (allocate_phys_mem envC3w (fun _ => 999) 0).ret = (envC3w.trials b).alloc ∧
      (∀ i gi, i < (allocate_phys_mem envC3w (fun _ => 999) 0).attempted →
        trialQual envC3w (cffOf envC3w) (aPOf envC3w 0) i gi →
        gb ≤ gi ∧ (gi = gb → b ≤ i))) :=
  ⟨⟨by decide, by decide⟩,
    C3_min_gap_first_found envC3w (fun _ => 999) 0 1 1 (by decide) (by decide)⟩

/-- C4 (counterexample): at `s = 2^32 - 1` (page size 4096) the `uint32_t`
round-up wraps to 0 and the normalized size collapses to the 1 MiB floor,
far below `s` rounded up to the next page multiple — the claim's third
conjunct fails. -/
theorem C4_counterexample :
    specRoundUp 4096 (2 ^ 32 - 1) = 2 ^ 32 ∧
    normalizeSize 4096 (2 ^ 32 - 1) = 2 ^ 20 ∧
    ¬ specRoundUp 4096 (2 ^ 32 - 1) ≤ normalizeSize 4096 (2 ^ 32 - 1) ∧
    (allocate_phys_mem envInert (fun _ => 0) (2 ^ 32 - 1)).sizeN = 2 ^ 20 := by
  decide

/-- C4 (witness): instantiates the amended claim at `s = 10` on a 4096-byte
page (the spec's own scenario: tiny request, 1 MiB floor dominates). -/
theorem C4_witness :
    (envInert.pageSize = 2 ^ 12 ∧ 12 ≤ 32 ∧ 10 + 2 ^ 12 ≤ 2 ^ 32) ∧
    (0 < (allocate_phys_mem envInert (fun _ => 0) 10).sizeN ∧
      (allocate_phys_mem envInert (fun _ => 0) 10).sizeN % envInert.pageSize = 0 ∧
      CACHE_GRANULARITY ≤ (allocate_phys_mem envInert (fun _ => 0) 10).sizeN ∧
      specRoundUp envInert.pageSize 10 ≤ (allocate_phys_mem envInert (fun _ => 0) 10).sizeN) :=
  ⟨⟨by decide, by decide, by decide⟩,
    C4_normalized_size envInert (fun _ => 0) 10 12 (by decide) (by decide) (by decide)⟩

/-- C5 (witness): in `envC3w`, trial 0's region (address 100) is allocated,
non-null and not the best block, and indeed appears in the cleanup list. -/
theorem C5_witness :
    ((0, 100) ∈ (allocate_phys_mem envC3w (fun _ => 999) 0).allocs ∧
      (100 : Nat) ≠ 0 ∧
      ((0 : Nat) : Int) ≠ (allocate_phys_mem envC3w (fun _ => 999) 0).best) ∧
    (0, 100) ∈ (allocate_phys_mem envC3w (fun _ => 999) 0).cleanup :=
  ⟨⟨by decide, by decide, by decide⟩,
    (C5_nonselected_released envC3w (fun _ => 999) 0).1 (0, 100)
      (by decide) (by decide) (by decide)⟩

/-- C6 (witness): the budget bounds instantiated on `envC3w`. -/
theorem C6_witness :
    (allocate_phys_mem envC3w (fun _ => 999) 0).attempted ≤
      envC3w.availPhysPages / (sizeNOf envC3w 0 / envC3w.pageSize) * 3 / 4 ∧
    (allocate_phys_mem envC3w (fun _ => 999) 0).attempted ≤ MAX_ATTEMPT ∧
    (allocate_phys_mem envC3w (fun _ => 999) 0).allocs.length =
      (allocate_phys_mem envC3w (fun _ => 999) 0).attempted ∧
    (∀ x, x ∈ (allocate_phys_mem envC3w (fun _ => 999) 0).allocs → x.1 < MAX_ATTEMPT) ∧
    (∀ x, x ∈ (allocate_phys_mem envC3w (fun _ => 999) 0).cleanup → x.1 < MAX_ATTEMPT) :=
  C6_attempts_bounded envC3w (fun _ => 999) 0

/-- Concrete call for C7: every trial maps perfectly contiguously, so trial 0
wins with zero gaps and the search stops at once. -/
def envC7w : Env := ⟨2 ^ 19, 8, true, fun _ => ⟨100, true, fun p => p + 7⟩⟩

/-- C7 (witness): instantiates the early-stop claim on `envC7w` at trial 0. -/
theorem C7_witness :
    (0 < (allocate_phys_mem envC7w (fun _ => 999) 0).attempted ∧
      trialQual envC7w (cffOf envC7w) (aPOf envC7w 0) 0 0) ∧
    ((allocate_phys_mem envC7w (fun _ => 999) 0).best = ((0 : Nat) : Int) ∧
      (allocate_phys_mem envC7w (fun _ => 999) 0).bestGaps = 0 ∧
      (allocate_phys_mem envC7w (fun _ => 999) 0).attempted = 0 + 1 ∧
      (allocate_phys_mem envC7w (fun _ => 999) 0).exit = Exit.brk ∧
      (∀ x, x ∈ (allocate_phys_mem envC7w (fun _ => 999) 0).allocs → x.1 ≤ 0) ∧
      (∀ x, x ∈ (allocate_phys_mem envC7w (fun _ => 999) 0).mlocks → x.1 ≤ 0) ∧
      (∀ x, x ∈ (allocate_phys_mem envC7w (fun _ => 999) 0).reads → x.1 ≤ 0)) :=
  ⟨⟨by decide, by decide⟩,
    C7_zero_gap_stops_search envC7w (fun _ => 999) 0 0 (by decide) (by decide)⟩

/-- C8 (witness): one available page cannot fit one 1 MiB trial, so the budget
is 0 and the call fails without touching the allocator. -/
theorem C8_witness :
    nTOf envInert 0 = 0 ∧
    ((allocate_phys_mem envInert (fun _ => 7) 0).ret = 0 ∧
      (allocate_phys_mem envInert (fun _ => 7) 0).allocs = [] ∧
      (allocate_phys_mem envInert (fun _ => 7) 0).mlocks = [] ∧
      (allocate_phys_mem envInert (fun _ => 7) 0).attempted = 0 ∧
      (allocate_phys_mem envInert (fun _ => 7) 0).cleanup = []) :=
  ⟨by decide, C8_zero_budget_returns_null envInert (fun _ => 7) 0 (by decide)⟩

/-- C9 (witness): the release path on the null region with a failing unpin. -/
theorem C9_witness :
    (free_phys_mem (fun _ _ => -1) 0 4096).1 = (fun _ _ => (-1 : Int)) 0 4096 ∧
    ((free_phys_mem (fun _ _ => -1) 0 4096).1 ≠ 0 ↔
      (fun _ _ => (-1 : Int)) 0 4096 ≠ 0) ∧
    (free_phys_mem (fun _ _ => -1) 0 4096).2 =
      [MemEvent.munlockEv 0 4096, MemEvent.freeEv 0] :=
  C9_release_path (fun _ _ => -1) 0 4096

/-- C10 (witness): cleanup safety instantiated on the counterexample call of
C1 (its cleanup entry (1, 200) is an allocation of the same call). -/
theorem C10_witness :
    (∀ x, x ∈ (allocate_phys_mem envC1x (fun _ => 999) 0).cleanup →
      x ∈ (allocate_phys_mem envC1x (fun _ => 999) 0).allocs ∧ x.2 ≠ 0 ∧
        x.1 < MAX_ATTEMPT) ∧
    ((allocate_phys_mem envC1x (fun _ => 999) 0).exit = Exit.noopen →
      (allocate_phys_mem envC1x (fun _ => 999) 0).cleanup = [] ∧
      (allocate_phys_mem envC1x (fun _ => 999) 0).allocs = [] ∧
      (allocate_phys_mem envC1x (fun _ => 999) 0).mlocks = []) :=
  C10_cleanup_only_this_call envC1x (fun _ => 999) 0

end ContigPhys
